import Mathlib

/-!
# Verification of `semantics/testhelpers.py`

A shallow embedding of the test-support harness for semantic analysis of
Nimble programs: the analysis driver `do_semantic_analysis`, the
`ExpressionTypeCollector` tree listener, and the `pretty_types` report
formatter.

External collaborators (the ANTLR parse tree machinery, the `parse`
function from `generic_parser`, the two analysis phases from
`nimblesemantics`, and the error log) are not part of the source under
`src/`; they are modelled from the spec where the claims need them, as
noted in the doc comments below.
-/

/-- Modelled from the spec: type values produced by the external analysis
phase (`nimblesemantics`, not in `src/`); an abstract closed set of
"real type values", each with the textual rendering Python string
formatting would produce. -/
inductive Ty where
  | Int : Ty
  | Bool : Ty
  | Str : Ty
  | ErrorType : Ty
deriving DecidableEq, Repr

/-- The textual rendering of a type value, as used by Python f-string
formatting in `pretty_types`. -/
def Ty.render : Ty → String
  | .Int => "Int"
  | .Bool => "Bool"
  | .Str => "String"
  | .ErrorType => "ERROR"

/-- Modelled from the spec: a scope object attached to tree nodes by the
external `DefineScopesAndSymbols` phase (not in `src/`); only identity
matters to the harness. -/
structure Scope where
  sid : Nat
deriving DecidableEq, Repr

/-- A token of the parsed source: its text and the line it starts on.
Models the ANTLR `Token` fields (`text`, `line`) used by the harness. -/
structure Tok where
  text : String
  line : Nat
deriving DecidableEq, Repr

/-- The parse-rule context classes that `ExpressionTypeCollector` dispatches
on via `isinstance`: `NimbleParser.ExprContext`, `NimbleParser.FuncCallStmtContext`,
and every other context class collapsed into one tag (per the spec's design
note, a closed set of tagged variants). -/
inductive Kind where
  | expr : Kind
  | funcCallStmt : Kind
  | other : Kind
deriving DecidableEq, Repr

/-- The ANTLR parse tree: terminal nodes carry a token; rule nodes
(`ParserRuleContext`) carry their context-class tag, their `start` token
(set by the external parser), an optional `type` annotation and an optional
`scope` annotation (dynamic attributes written by the external analysis
phases, modelled as optional fields defaulted to absent), and their
children in order. -/
inductive PTree where
  | term : Tok → PTree
  | rule : Kind → Tok → Option Ty → Option Scope → List PTree → PTree
deriving Repr

mutual

/-- `ctx.getText()`: the node's full covered text, the exact concatenation
of the texts of its terminal tokens with no separating whitespace. -/
def getText : PTree → String
  | .term t => t.text
  | .rule _ _ _ _ cs => getTextList cs

/-- `getText` mapped over a child list and concatenated. -/
def getTextList : List PTree → String
  | [] => ""
  | c :: cs => getText c ++ getTextList cs

end

/-- `ctx.start.line`: the line of the node's starting token. -/
def startLine : PTree → Nat
  | .term t => t.line
  | .rule _ s _ _ _ => s.line

/-- `ctx.type if hasattr(ctx, 'type') else None`: the node's `type`
annotation when present, `none` standing for the absent attribute /
Python `None`. -/
def nodeTy : PTree → Option Ty
  | .term _ => none
  | .rule _ _ ty _ _ => ty

/-- The context-class tag of a node (terminals are never rule contexts,
so they take the `other` tag). -/
def kindOf : PTree → Kind
  | .term _ => .other
  | .rule k _ _ _ _ => k

/-- `tree.scope if hasattr(tree, 'scope') else None`: the node's `scope`
annotation when present. -/
def scopeOf : PTree → Option Scope
  | .term _ => none
  | .rule _ _ _ sc _ => sc

/-- Whether a context-class tag passes the collector's `isinstance` test:
`ExprContext` or `FuncCallStmtContext`. -/
def kindIncluded : Kind → Bool
  | .expr => true
  | .funcCallStmt => true
  | .other => false

/-- Whether a node passes the collector's `isinstance(ctx, ExprContext) or
isinstance(ctx, FuncCallStmtContext)` test. -/
def includedNode (t : PTree) : Bool := kindIncluded (kindOf t)

mutual

/-- The sequence of rule contexts in the order `ParseTreeWalker.walk` fires
`exitEveryRule`: depth-first, children left to right, each rule node after
all of its children (post-order). Terminals fire `visitTerminal`, not
`exitEveryRule`, so they do not appear. -/
def exits : PTree → List PTree
  | .term _ => []
  | .rule k s ty sc cs => exitsList cs ++ [PTree.rule k s ty sc cs]

/-- `exits` over a child list, in order. -/
def exitsList : List PTree → List PTree
  | [] => []
  | c :: cs => exits c ++ exitsList cs

end

/-- The list of context-class tags of the rule contexts of a tree, in exit
order; analysis phases annotate nodes but never restructure the tree, so
this list is what they preserve. -/
def exitKinds (t : PTree) : List Kind := (exits t).map kindOf

/-- The inner level of `inferred_types`: a Python `dict` from expression
source text to inferred type, as an insertion-ordered association list
with no duplicate keys. -/
abbrev InnerDict := List (String × Option Ty)

/-- `self.inferred_types`: a Python `defaultdict(dict)` from line number to
inner dict, as an insertion-ordered association list. -/
abbrev TypeIndex := List (Nat × InnerDict)

/-- Python `d[k] = v` on a `dict`: updating an existing key keeps its
position and replaces its value; a new key is appended at the end. -/
def dictInsert {α β : Type} [DecidableEq α] (d : List (α × β)) (k : α) (v : β) :
    List (α × β) :=
  if d.any (fun p => decide (p.1 = k)) then
    d.map (fun p => if p.1 = k then (k, v) else p)
  else d ++ [(k, v)]

/-- Python `d[k]` on a `dict` (or `d.get(k)`): the value at the first (and
only) occurrence of the key, if present. -/
def dictGet {α β : Type} [DecidableEq α] (d : List (α × β)) (k : α) : Option β :=
  (d.find? (fun p => decide (p.1 = k))).map (fun p => p.2)

/-- Python `d[line]` on the `defaultdict(dict)`: a present key yields its
inner dict and leaves the mapping unchanged; an absent key yields a fresh
empty inner dict and inserts it (auto-vivification), growing the set of
outer keys. -/
def ddGetItem (d : TypeIndex) (line : Nat) : InnerDict × TypeIndex :=
  match d.find? (fun p => decide (p.1 = line)) with
  | some p => (p.2, d)
  | none => ([], d ++ [(line, [])])

/-- `self.inferred_types[line][source] = inferred_type`: vivifying lookup of
the inner dict for `line`, then insertion of `source ↦ v` into it; the
outer entry at `line` holds the updated inner dict (in Python the inner
dict is mutated in place, so the outer entry, whose position is unchanged,
sees the update). -/
def indexSet (d : TypeIndex) (line : Nat) (src : String) (v : Option Ty) :
    TypeIndex :=
  let g := ddGetItem d line
  dictInsert g.2 line (dictInsert g.1 src v)

/-- `ExpressionTypeCollector.exitEveryRule`: for an `Expr` or `FuncCallStmt`
context, record `inferred_types[ctx.start.line][ctx.getText()] =
(ctx.type if hasattr(ctx, 'type') else None)`; other contexts are ignored. -/
def exitEveryRule (idx : TypeIndex) (ctx : PTree) : TypeIndex :=
  if includedNode ctx then
    indexSet idx (startLine ctx) (getText ctx) (nodeTy ctx)
  else idx

mutual

/-- `ParseTreeWalker().walk(type_collector, tree)` threading the collector
state: fires `exitEveryRule` on each rule context after walking its
children. -/
def walkCollect (idx : TypeIndex) : PTree → TypeIndex
  | .term _ => idx
  | .rule k s ty sc cs => exitEveryRule (walkCollectList idx cs) (PTree.rule k s ty sc cs)

/-- `walkCollect` over a child list, left to right. -/
def walkCollectList (idx : TypeIndex) : List PTree → TypeIndex
  | [] => idx
  | c :: cs => walkCollectList (walkCollect idx c) cs

end

/-- A fresh `ExpressionTypeCollector` walked over `tree`:
`inferred_types` starts as the empty `defaultdict(dict)`. -/
def collectTree (t : PTree) : TypeIndex := walkCollect [] t

/-- Two-level lookup in the type index: the recorded value for
`(line, src)`, if an entry exists. -/
def lookup2 (d : TypeIndex) (line : Nat) (src : String) : Option (Option Ty) :=
  match dictGet d line with
  | some inner => dictGet inner src
  | none => none

/-- A two-level index is well-formed when it is representable as a Python
dict of dicts: no duplicate keys at the outer level, nor in any inner
dict. -/
def IndexWF (d : TypeIndex) : Prop :=
  (d.map (fun p => p.1)).Nodup ∧ ∀ p ∈ d, (p.2.map (fun q => q.1)).Nodup

/-- Every value recorded anywhere in the index is the `None` marker. -/
def allValsNone (d : TypeIndex) : Prop :=
  ∀ p ∈ d, ∀ q ∈ p.2, q.2 = none

/-- All `type` annotations in the tree are absent (as on a tree fresh from
the parser, before any phase wrote annotations). -/
def typeFree (t : PTree) : Prop := ∀ n ∈ exits t, nodeTy n = none

/-- The collector's match condition for an index cell: an included node
whose start line and rendered text are the given key pair. -/
def matchKey (l : Nat) (s : String) (n : PTree) : Bool :=
  includedNode n && (startLine n == l) && (getText n == s)

/-- Modelled from the spec: the external collaborators of the driver, none
of which are in `src/` — `parse` from `generic_parser`, and the two
analysis-phase walks from `nimblesemantics`. A phase walk takes the tree
and yields the annotated tree together with the list of error records it
appends to the `ErrorLog` (the log, also external, is an append-only
ordered sequence, modelled as a `List String`); phases annotate nodes in
place and never restructure the tree, which individual claims assume as
explicit hypotheses where needed. -/
structure Externals where
  parse : String → String → PTree
  defineScopesAndSymbols : PTree → PTree × List String
  inferTypesAndCheckConstraints : PTree → PTree × List String

/-- `do_semantic_analysis(source, start_rule_name, first_phase_only)`:
parse, create an empty error log, walk `DefineScopesAndSymbols`, walk
`InferTypesAndCheckConstraints` unless `first_phase_only`, walk a fresh
`ExpressionTypeCollector`, read `tree.scope` if present, and return the
triple `(errors, global_scope, type_collector.inferred_types)`. -/
def do_semantic_analysis (ext : Externals) (source start_rule_name : String)
    (first_phase_only : Bool) : List String × Option Scope × TypeIndex :=
  let tree0 := ext.parse source start_rule_name
  let p1 := ext.defineScopesAndSymbols tree0
  let errors1 : List String := [] ++ p1.2
  let p2 := if first_phase_only then (p1.1, ([] : List String))
            else ext.inferTypesAndCheckConstraints p1.1
  let errors2 := errors1 ++ p2.2
  let inferred := collectTree p2.1
  let global_scope := scopeOf p2.1
  (errors2, global_scope, inferred)

/-- Python string formatting of an inferred-type value in `pretty_types`:
`None` renders as `"None"`, a real type value by its own rendering. -/
def pyStr : Option Ty → String
  | none => "None"
  | some t => t.render

/-- `inferred_types[line_number]` for a line already known to be a key
(no vivification happens in `pretty_types`, where lines come from
`inferred_types.keys()`). -/
def innerAt (d : TypeIndex) (line : Nat) : InnerDict :=
  (dictGet d line).getD []

/-- One output line of `pretty_types`:
`f'  {expr} : {inferred_types[line_number][expr]}'`. -/
def exprReportLine (d : TypeIndex) (line : Nat) (expr : String) : String :=
  "  " ++ expr ++ " : " ++ pyStr ((dictGet (innerAt d line) expr).getD none)

/-- The header line of a block: `f'line {line_number}:'`. -/
def lineHeader (line : Nat) : String := "line " ++ toString line ++ ":"

/-- Python `sorted` order on line numbers: ascending numeric. -/
def natLeB (a b : Nat) : Bool := decide (a ≤ b)

/-- Python `sorted` order on expression texts: ascending lexicographic
comparison of strings by code point. -/
def strLeB (a b : String) : Bool := decide (a ≤ b)

/-- `pretty_types(inferred_types)`: for each line number of the index in
ascending order, a `line <N>:` header followed by one report line per
expression on that line in ascending lexicographic order, all joined with
newlines. -/
def pretty_types (inferred_types : TypeIndex) : String :=
  let output := ((inferred_types.map (fun p => p.1)).mergeSort natLeB).flatMap
    (fun line_number =>
      lineHeader line_number ::
        (((innerAt inferred_types line_number).map (fun p => p.1)).mergeSort strLeB).map
          (fun expr => exprReportLine inferred_types line_number expr))
  String.intercalate "\n" output

/-- A concrete parse tree for evaluation: a `script` rule whose only
included node is the expression `1+2` on line 1, annotated `Int`. -/
def exOneExpr : PTree :=
  PTree.rule .expr ⟨"1", 1⟩ (some .Int) none
    [PTree.term ⟨"1", 1⟩, PTree.term ⟨"+", 1⟩, PTree.term ⟨"2", 1⟩]

/-- A concrete root wrapping `exOneExpr` under a non-collected rule kind. -/
def exRoot : PTree :=
  PTree.rule .other ⟨"1", 1⟩ none (some ⟨0⟩) [exOneExpr]

/-- A concrete unannotated expression node (`x` on line 1, no `type`). -/
def exNoTy : PTree :=
  PTree.rule .expr ⟨"x", 1⟩ none none [PTree.term ⟨"x", 1⟩]

/-- A concrete tree with the same expression text `x` on two different
lines (lines 1 and 2). -/
def exTwoLines : PTree :=
  PTree.rule .other ⟨"x", 1⟩ none none
    [PTree.rule .expr ⟨"x", 1⟩ (some .Int) none [PTree.term ⟨"x", 1⟩],
     PTree.rule .expr ⟨"x", 2⟩ (some .Bool) none [PTree.term ⟨"x", 2⟩]]

/-- A concrete tree with no expression and no function-call-statement
nodes at all. -/
def exNoExpr : PTree :=
  PTree.rule .other ⟨"var", 1⟩ none none
    [PTree.term ⟨"var", 1⟩, PTree.rule .other ⟨"x", 1⟩ none none [PTree.term ⟨"x", 1⟩]]

/-- Concrete external collaborators for evaluation: the parser always
yields the unannotated tree `exNoTy` and both phases are traversals that
annotate nothing and log nothing. -/
def extIdNoTy : Externals where
  parse := fun _ _ => exNoTy
  defineScopesAndSymbols := fun t => (t, [])
  inferTypesAndCheckConstraints := fun t => (t, [])

/-- Concrete external collaborators whose parser yields the
expression-free tree `exNoExpr`. -/
def extIdNoExpr : Externals where
  parse := fun _ _ => exNoExpr
  defineScopesAndSymbols := fun t => (t, [])
  inferTypesAndCheckConstraints := fun t => (t, [])

/-- Concrete external collaborators whose parser yields `exTwoLines` and
whose phases annotate nothing. -/
def extIdTwoLines : Externals where
  parse := fun _ _ => exTwoLines
  defineScopesAndSymbols := fun t => (t, [])
  inferTypesAndCheckConstraints := fun t => (t, [])

theorem dictGet_map_keep {α β : Type} [DecidableEq α] (d : List (α × β))
    (k k' : α) (v : β) (h : k' ≠ k) :
    dictGet (d.map (fun p => if p.1 = k then (k, v) else p)) k' = dictGet d k' := by
  induction d with
  | nil => rfl
  | cons p d ih =>
    rw [List.map_cons]
    by_cases hp : p.1 = k
    · rw [if_pos hp]
      unfold dictGet
      rw [List.find?_cons_of_neg _ (by simpa using fun e => h e.symm),
        List.find?_cons_of_neg _ (by simpa using fun e => h (hp ▸ e).symm)]
      exact ih
    · rw [if_neg hp]
      unfold dictGet
      by_cases hpk : p.1 = k'
      · rw [List.find?_cons_of_pos _ (by simpa using hpk),
          List.find?_cons_of_pos _ (by simpa using hpk)]
      · rw [List.find?_cons_of_neg _ (by simpa using hpk),
          List.find?_cons_of_neg _ (by simpa using hpk)]
        exact ih

theorem dictGet_map_hit {α β : Type} [DecidableEq α] (d : List (α × β))
    (k : α) (v : β) (h : d.any (fun p => decide (p.1 = k)) = true) :
    dictGet (d.map (fun p => if p.1 = k then (k, v) else p)) k = some v := by
  induction d with
  | nil => simp at h
  | cons p d ih =>
    rw [List.map_cons]
    by_cases hp : p.1 = k
    · rw [if_pos hp]
      unfold dictGet
      rw [List.find?_cons_of_pos _ (by simp)]
      rfl
    · rw [if_neg hp]
      unfold dictGet
      rw [List.find?_cons_of_neg _ (by simpa using hp)]
      apply ih
      rcases List.any_eq_true.mp h with ⟨q, hq, hqk⟩
      cases List.mem_cons.mp hq with
      | inl e => exact absurd (of_decide_eq_true (e ▸ hqk)) hp
      | inr hq2 => exact List.any_eq_true.mpr ⟨q, hq2, hqk⟩

theorem dictGet_eq_none_iff {α β : Type} [DecidableEq α] (d : List (α × β)) (k : α) :
    dictGet d k = none ↔ d.any (fun p => decide (p.1 = k)) = false := by
  constructor
  · intro hn
    rw [List.any_eq_false]
    intro p hp hdec
    unfold dictGet at hn
    rw [Option.map_eq_none'] at hn
    exact (List.find?_eq_none.mp hn p hp) hdec
  · intro hf
    unfold dictGet
    rw [Option.map_eq_none', List.find?_eq_none]
    exact fun p hp hdec => (List.any_eq_false.mp hf p hp) hdec

theorem dictGet_dictInsert {α β : Type} [DecidableEq α] (d : List (α × β))
    (k k' : α) (v : β) :
    dictGet (dictInsert d k v) k' = if k' = k then some v else dictGet d k' := by
  unfold dictInsert
  by_cases hany : d.any (fun p => decide (p.1 = k)) = true
  · rw [if_pos hany]
    by_cases hk : k' = k
    · subst hk; rw [if_pos rfl]; exact dictGet_map_hit d k' v hany
    · rw [if_neg hk]; exact dictGet_map_keep d k k' v hk
  · rw [if_neg hany]
    by_cases hk : k' = k
    · subst hk
      rw [if_pos rfl]
      have h1 : List.find? (fun p => decide (p.1 = k')) d = none := by
        rw [List.find?_eq_none]
        intro p hp hdec
        exact hany (List.any_eq_true.mpr ⟨p, hp, hdec⟩)
      unfold dictGet
      rw [List.find?_append, h1, Option.none_or,
        List.find?_cons_of_pos _ (by simp)]
      rfl
    · rw [if_neg hk]
      unfold dictGet
      have h2 : List.find? (fun p => decide (p.1 = k')) [(k, v)] = none := by
        rw [List.find?_eq_none]
        intro p hp
        rw [List.mem_singleton] at hp
        subst hp
        simpa using Ne.symm hk
      rw [List.find?_append, h2, Option.or_none]

theorem ddGetItem_fst (d : TypeIndex) (l : Nat) :
    (ddGetItem d l).1 = (dictGet d l).getD [] := by
  unfold ddGetItem dictGet
  cases List.find? (fun p => decide (p.1 = l)) d <;> rfl

theorem ddGetItem_of_some (d : TypeIndex) (l : Nat) (inn : InnerDict)
    (h : dictGet d l = some inn) : ddGetItem d l = (inn, d) := by
  unfold dictGet at h
  unfold ddGetItem
  cases hf : List.find? (fun p => decide (p.1 = l)) d with
  | some p =>
    rw [hf] at h
    simp only [Option.map_some', Option.some_inj] at h
    show (p.2, d) = (inn, d)
    rw [h]
  | none => rw [hf] at h; simp at h

theorem ddGetItem_of_none (d : TypeIndex) (l : Nat)
    (h : dictGet d l = none) : ddGetItem d l = ([], d ++ [(l, [])]) := by
  unfold dictGet at h
  rw [Option.map_eq_none'] at h
  unfold ddGetItem
  rw [h]

theorem ddGetItem_snd_get (d : TypeIndex) (l l' : Nat) :
    dictGet (ddGetItem d l).2 l' =
      if l' = l then some ((dictGet d l).getD []) else dictGet d l' := by
  cases hg : dictGet d l with
  | some inn =>
    rw [ddGetItem_of_some d l inn hg]
    by_cases hk : l' = l
    · subst hk
      rw [if_pos rfl, hg]
      rfl
    · rw [if_neg hk]
  | none =>
    rw [ddGetItem_of_none d l hg]
    by_cases hk : l' = l
    · subst hk
      rw [if_pos rfl]
      show dictGet (d ++ [(l', [])]) l' = some (Option.getD none [])
      unfold dictGet
      rw [List.find?_append]
      unfold dictGet at hg
      rw [Option.map_eq_none'] at hg
      rw [hg, Option.none_or, List.find?_cons_of_pos _ (by simp)]
      rfl
    · rw [if_neg hk]
      unfold dictGet
      rw [List.find?_append]
      have h3 : List.find? (fun p : Nat × InnerDict => decide (p.1 = l')) [(l, [])] = none := by
        rw [List.find?_eq_none]
        intro p hp
        rw [List.mem_singleton] at hp
        subst hp
        simpa using Ne.symm hk
      rw [h3, Option.or_none]

theorem ddGetItem_snd_mem (d : TypeIndex) (l : Nat) (p : Nat × InnerDict)
    (h : p ∈ (ddGetItem d l).2) : p ∈ d ∨ p = (l, []) := by
  unfold ddGetItem at h
  cases hf : List.find? (fun q => decide (q.1 = l)) d with
  | some q => rw [hf] at h; exact Or.inl h
  | none =>
    rw [hf] at h
    rcases List.mem_append.mp h with h1 | h1
    · exact Or.inl h1
    · exact Or.inr (List.mem_singleton.mp h1)

theorem dictInsert_mem {α β : Type} [DecidableEq α] (d : List (α × β))
    (k : α) (v : β) (p : α × β) (h : p ∈ dictInsert d k v) :
    p = (k, v) ∨ p ∈ d := by
  unfold dictInsert at h
  by_cases hany : d.any (fun q => decide (q.1 = k)) = true
  · rw [if_pos hany] at h
    rcases List.mem_map.mp h with ⟨q, hq, hqe⟩
    by_cases hqk : q.1 = k
    · rw [if_pos hqk] at hqe; exact Or.inl hqe.symm
    · rw [if_neg hqk] at hqe; exact Or.inr (hqe ▸ hq)
  · rw [if_neg hany] at h
    rcases List.mem_append.mp h with h1 | h1
    · exact Or.inr h1
    · exact Or.inl (List.mem_singleton.mp h1)

theorem lookup2_indexSet (d : TypeIndex) (l : Nat) (s : String) (v : Option Ty)
    (l' : Nat) (s' : String) :
    lookup2 (indexSet d l s v) l' s' =
      if l' = l ∧ s' = s then some v else lookup2 d l' s' := by
  unfold indexSet lookup2
  rw [dictGet_dictInsert]
  by_cases hl : l' = l
  · subst hl
    rw [if_pos rfl]
    show dictGet (dictInsert (ddGetItem d l').1 s v) s' = _
    rw [dictGet_dictInsert]
    by_cases hs : s' = s
    · subst hs
      rw [if_pos rfl, if_pos ⟨rfl, rfl⟩]
    · rw [if_neg hs, if_neg (fun hc => hs hc.2)]
      rw [ddGetItem_fst]
      cases hg : dictGet d l' with
      | some inner => rfl
      | none => rfl
  · rw [if_neg hl, if_neg (fun hc => hl hc.1)]
    rw [ddGetItem_snd_get, if_neg hl]

theorem dictInsert_keys_nodup {α β : Type} [DecidableEq α] (d : List (α × β))
    (k : α) (v : β) (h : (d.map (fun p => p.1)).Nodup) :
    ((dictInsert d k v).map (fun p => p.1)).Nodup := by
  unfold dictInsert
  by_cases hany : d.any (fun p => decide (p.1 = k)) = true
  · rw [if_pos hany, List.map_map]
    have he : d.map ((fun p => p.1) ∘ fun p => if p.1 = k then (k, v) else p) =
        d.map (fun p => p.1) := by
      apply List.map_congr_left
      intro p _
      by_cases hp : p.1 = k
      · simp [hp]
      · simp [hp]
    rw [he]
    exact h
  · rw [if_neg hany, List.map_append]
    have hk : k ∉ d.map (fun p => p.1) := by
      intro hmem
      rcases List.mem_map.mp hmem with ⟨p, hp, hpk⟩
      apply hany
      exact List.any_eq_true.mpr ⟨p, hp, decide_eq_true hpk⟩
    have hperm : List.Perm ((d.map (fun p => p.1)) ++ [k]) (k :: d.map (fun p => p.1)) :=
      List.perm_append_singleton k (d.map (fun p => p.1))
    exact hperm.nodup_iff.mpr (List.nodup_cons.mpr ⟨hk, h⟩)

theorem ddGetItem_snd_keys_nodup (d : TypeIndex) (l : Nat)
    (h : (d.map (fun p => p.1)).Nodup) :
    ((ddGetItem d l).2.map (fun p => p.1)).Nodup := by
  cases hg : dictGet d l with
  | some inn => rw [ddGetItem_of_some d l inn hg]; exact h
  | none =>
    rw [ddGetItem_of_none d l hg, List.map_append]
    have hl : l ∉ d.map (fun p => p.1) := by
      intro hmem
      rcases List.mem_map.mp hmem with ⟨p, hp, hpk⟩
      have := (dictGet_eq_none_iff d l).mp hg
      rw [List.any_eq_false] at this
      exact this p hp (decide_eq_true hpk)
    have hperm : List.Perm ((d.map (fun p => p.1)) ++ [l]) (l :: d.map (fun p => p.1)) :=
      List.perm_append_singleton l (d.map (fun p => p.1))
    exact hperm.nodup_iff.mpr (List.nodup_cons.mpr ⟨hl, h⟩)

theorem ddGetItem_fst_mem (d : TypeIndex) (l : Nat) (q : String × Option Ty)
    (h : q ∈ (ddGetItem d l).1) : ∃ p, p ∈ d ∧ q ∈ p.2 := by
  rw [ddGetItem_fst] at h
  cases hg : dictGet d l with
  | some inn =>
    rw [hg] at h
    unfold dictGet at hg
    cases hf : List.find? (fun p => decide (p.1 = l)) d with
    | some p =>
      rw [hf] at hg
      simp only [Option.map_some', Option.some_inj] at hg
      exact ⟨p, List.mem_of_find?_eq_some hf, hg ▸ h⟩
    | none => rw [hf] at hg; simp at hg
  | none => rw [hg] at h; simp at h

theorem indexSet_WF (d : TypeIndex) (l : Nat) (s : String) (v : Option Ty)
    (h : IndexWF d) : IndexWF (indexSet d l s v) := by
  obtain ⟨hout, hin⟩ := h
  constructor
  · exact dictInsert_keys_nodup _ _ _ (ddGetItem_snd_keys_nodup d l hout)
  · intro p hp
    rcases dictInsert_mem _ _ _ _ hp with he | hmem
    · subst he
      apply dictInsert_keys_nodup
      rw [ddGetItem_fst]
      cases hg : dictGet d l with
      | some inn =>
        unfold dictGet at hg
        cases hf : List.find? (fun q => decide (q.1 = l)) d with
        | some q =>
          rw [hf] at hg
          simp only [Option.map_some', Option.some_inj] at hg
          exact hg ▸ (hin q (List.mem_of_find?_eq_some hf))
        | none => rw [hf] at hg; simp at hg
      | none => simp
    · rcases ddGetItem_snd_mem d l p hmem with hd | he
      · exact hin p hd
      · rw [he]; simp

theorem indexSet_vals_none (d : TypeIndex) (l : Nat) (s : String)
    (h : allValsNone d) : allValsNone (indexSet d l s none) := by
  intro p hp q hq
  rcases dictInsert_mem _ _ _ _ hp with he | hmem
  · subst he
    rcases dictInsert_mem _ _ _ _ hq with he2 | hmem2
    · rw [he2]
    · rcases ddGetItem_fst_mem d l q hmem2 with ⟨r, hr, hqr⟩
      exact h r hr q hqr
  · rcases ddGetItem_snd_mem d l p hmem with hd | he
    · exact h p hd q hq
    · rw [he] at hq; simp at hq

mutual

theorem walkCollect_eq_foldl (idx : TypeIndex) (t : PTree) :
    walkCollect idx t = (exits t).foldl exitEveryRule idx := by
  match t with
  | .term tk => rfl
  | .rule k s ty sc cs =>
    rw [walkCollect, exits, List.foldl_append, walkCollectList_eq_foldl]
    rfl

theorem walkCollectList_eq_foldl (idx : TypeIndex) (cs : List PTree) :
    walkCollectList idx cs = (exitsList cs).foldl exitEveryRule idx := by
  match cs with
  | [] => rfl
  | c :: cs =>
    rw [walkCollectList, exitsList, List.foldl_append, walkCollect_eq_foldl,
      walkCollectList_eq_foldl]

end

theorem exitEveryRule_not_included (idx : TypeIndex) (n : PTree)
    (h : includedNode n = false) : exitEveryRule idx n = idx := by
  unfold exitEveryRule
  rw [h]
  rfl

theorem foldl_exit_filter (ns : List PTree) (idx : TypeIndex) :
    ns.foldl exitEveryRule idx = (ns.filter includedNode).foldl exitEveryRule idx := by
  induction ns generalizing idx with
  | nil => rfl
  | cons n ns ih =>
    rw [List.foldl_cons]
    cases hn : includedNode n with
    | true => rw [List.filter_cons_of_pos hn, List.foldl_cons, ih]
    | false =>
      rw [List.filter_cons_of_neg (by simp [hn]), exitEveryRule_not_included idx n hn, ih]

theorem lookup2_exitEveryRule (idx : TypeIndex) (n : PTree) (l : Nat) (s : String) :
    lookup2 (exitEveryRule idx n) l s =
      if matchKey l s n then some (nodeTy n) else lookup2 idx l s := by
  unfold exitEveryRule matchKey
  cases hn : includedNode n with
  | false =>
    rw [if_neg (by simp)]
    simp [hn]
  | true =>
    show lookup2 (indexSet idx (startLine n) (getText n) (nodeTy n)) l s = _
    rw [lookup2_indexSet]
    by_cases hl : l = startLine n
    · by_cases hs : s = getText n
      · rw [if_pos ⟨hl, hs⟩, if_pos (by subst hl; subst hs; simp [hn])]
      · have hts : (getText n == s) = false := by
          rw [beq_eq_false_iff_ne]
          exact fun e => hs e.symm
        rw [if_neg (fun hc => hs hc.2), if_neg (by simp [hts])]
    · have htl : (startLine n == l) = false := by
        rw [beq_eq_false_iff_ne]
        exact fun e => hl e.symm
      rw [if_neg (fun hc => hl hc.1), if_neg (by simp [htl])]

theorem lookup2_foldl_exit (ns : List PTree) (idx : TypeIndex) (l : Nat) (s : String) :
    lookup2 (ns.foldl exitEveryRule idx) l s =
      match ns.reverse.find? (matchKey l s) with
      | some n => some (nodeTy n)
      | none => lookup2 idx l s := by
  induction ns generalizing idx with
  | nil => rfl
  | cons n ns ih =>
    rw [List.foldl_cons, ih, List.reverse_cons, List.find?_append]
    cases hf : ns.reverse.find? (matchKey l s) with
    | some m => rfl
    | none =>
      rw [Option.none_or]
      cases hm : matchKey l s n with
      | true =>
        rw [List.find?_cons_of_pos _ hm]
        show lookup2 (exitEveryRule idx n) l s = some (nodeTy n)
        rw [lookup2_exitEveryRule, if_pos hm]
      | false =>
        rw [List.find?_cons_of_neg _ (by simp [hm])]
        show lookup2 (exitEveryRule idx n) l s = lookup2 idx l s
        rw [lookup2_exitEveryRule, if_neg (by simp [hm])]

theorem collectTree_eq_foldl (t : PTree) :
    collectTree t = ((exits t).filter includedNode).foldl exitEveryRule [] := by
  unfold collectTree
  rw [walkCollect_eq_foldl, foldl_exit_filter]

theorem lookup2_collectTree (t : PTree) (l : Nat) (s : String) :
    lookup2 (collectTree t) l s =
      match (exits t).reverse.find? (matchKey l s) with
      | some n => some (nodeTy n)
      | none => none := by
  unfold collectTree
  rw [walkCollect_eq_foldl, lookup2_foldl_exit]
  rfl

theorem foldl_exit_WF (ns : List PTree) (idx : TypeIndex) (h : IndexWF idx) :
    IndexWF (ns.foldl exitEveryRule idx) := by
  induction ns generalizing idx with
  | nil => exact h
  | cons n ns ih =>
    rw [List.foldl_cons]
    apply ih
    unfold exitEveryRule
    by_cases hn : includedNode n = true
    · rw [if_pos hn]
      exact indexSet_WF _ _ _ _ h
    · rw [if_neg hn]
      exact h

theorem foldl_exit_vals_none (ns : List PTree) (idx : TypeIndex)
    (hns : ∀ n ∈ ns, nodeTy n = none) (h : allValsNone idx) :
    allValsNone (ns.foldl exitEveryRule idx) := by
  induction ns generalizing idx with
  | nil => exact h
  | cons n ns ih =>
    rw [List.foldl_cons]
    refine ih _ (fun m hm => hns m (List.mem_cons_of_mem n hm)) ?_
    unfold exitEveryRule
    by_cases hn : includedNode n = true
    · rw [if_pos hn, hns n (List.mem_cons_self n ns)]
      exact indexSet_vals_none idx _ _ h
    · rw [if_neg hn]
      exact h

theorem matchKey_self (n : PTree) (h : includedNode n = true) :
    matchKey (startLine n) (getText n) n = true := by
  unfold matchKey
  rw [h]
  simp

theorem lookup2_collectTree_isSome (t : PTree) (n : PTree) (hmem : n ∈ exits t)
    (hinc : includedNode n = true) :
    (lookup2 (collectTree t) (startLine n) (getText n)).isSome = true := by
  rw [lookup2_collectTree]
  cases hf : (exits t).reverse.find? (matchKey (startLine n) (getText n)) with
  | some m => rfl
  | none =>
    rw [List.find?_eq_none] at hf
    exact absurd (matchKey_self n hinc) (hf n (List.mem_reverse.mpr hmem))

theorem filter_included_eq_nil_iff (t : PTree) :
    (exits t).filter includedNode = [] ↔
      ∀ k ∈ exitKinds t, kindIncluded k = false := by
  rw [List.filter_eq_nil_iff]
  unfold exitKinds
  constructor
  · intro h k hk
    rcases List.mem_map.mp hk with ⟨n, hn, he⟩
    have h2 := h n hn
    unfold includedNode at h2
    rw [← he]
    simpa using h2
  · intro h n hn
    have h2 := h (kindOf n) (List.mem_map_of_mem kindOf hn)
    unfold includedNode
    simp [h2]

theorem indexSet_nil (l : Nat) (s : String) (v : Option Ty) :
    indexSet [] l s v = [(l, [(s, v)])] := by
  show dictInsert (ddGetItem [] l).2 l (dictInsert (ddGetItem [] l).1 s v) = _
  have h0 : ddGetItem [] l = ([], [(l, [])]) := rfl
  rw [h0]
  show dictInsert [(l, [])] l (dictInsert [] s v) = _
  have h1 : dictInsert ([] : InnerDict) s v = [(s, v)] := rfl
  rw [h1]
  unfold dictInsert
  rw [if_pos (by simp)]
  simp

/-- Claim C1: the Type Collector includes exactly the nodes classified as
expression nodes or function-call-statement nodes (ignoring all other node
kinds); for each included node it records an entry at the node's
starting-token line, keyed by the node's full covered text rendered with
no separating whitespace; in particular, for a single expression appearing
exactly once, the type index contains exactly one entry at its line keyed
by its exact rendered text, whose value is the node's type annotation. -/
theorem claim1_collector_records_each_included_node (t n : PTree)
    (h : (exits t).filter includedNode = [n]) :
    (∀ u : PTree, collectTree u = ((exits u).filter includedNode).foldl exitEveryRule []) ∧
    (∀ m ∈ exits t, includedNode m = true →
        (lookup2 (collectTree t) (startLine m) (getText m)).isSome = true) ∧
    collectTree t = [(startLine n, [(getText n, nodeTy n)])] := by
  refine ⟨collectTree_eq_foldl, fun m hm hi => lookup2_collectTree_isSome t m hm hi, ?_⟩
  have hn : includedNode n = true := by
    have hmem : n ∈ (exits t).filter includedNode := h ▸ List.mem_singleton.mpr rfl
    exact (List.mem_filter.mp hmem).2
  rw [collectTree_eq_foldl, h, List.foldl_cons, List.foldl_nil]
  unfold exitEveryRule
  rw [if_pos hn]
  exact indexSet_nil _ _ _

/-- Witness for C1: the tree `exRoot` has exactly one included node, the
expression `1+2` on line 1 annotated `Int`, and its collected index is
exactly the one entry at line 1 keyed `"1+2"` with value `Int`. -/
theorem claim1_witness :
    (exits exRoot).filter includedNode = [exOneExpr] ∧
    collectTree exRoot = [(1, [("1+2", some Ty.Int)])] :=
  ⟨rfl, (claim1_collector_records_each_included_node exRoot exOneExpr rfl).2.2⟩

/-- Claim C2: with `first_phase_only = true` the type-inference phase never
runs; provided the parser produces an unannotated tree and the first phase
writes no type annotations (facts about the external collaborators, per
the spec), every entry of the resulting type index is the `None` marker. -/
theorem claim2_first_phase_only_all_values_none (ext : Externals) (s r : String)
    (hparse : typeFree (ext.parse s r))
    (h1 : ∀ u, typeFree u → typeFree (ext.defineScopesAndSymbols u).1) :
    allValsNone (do_semantic_analysis ext s r true).2.2 := by
  have hT : typeFree (ext.defineScopesAndSymbols (ext.parse s r)).1 := h1 _ hparse
  show allValsNone (collectTree (ext.defineScopesAndSymbols (ext.parse s r)).1)
  rw [collectTree, walkCollect_eq_foldl]
  exact foldl_exit_vals_none _ _ hT (fun p hp => absurd hp (List.not_mem_nil p))

/-- Witness for C2: the concrete externals `extIdNoTy` satisfy both
hypotheses, and the driver run with `first_phase_only = true` yields an
index whose every value is the marker. -/
theorem claim2_witness :
    typeFree (extIdNoTy.parse "x" "script") ∧
    allValsNone (do_semantic_analysis extIdNoTy "x" "script" true).2.2 :=
  ⟨by unfold typeFree; decide,
   claim2_first_phase_only_all_values_none extIdNoTy "x" "script"
     (by unfold typeFree; decide) (fun u hu => hu)⟩

/-- Claim C3: the driver returns exactly the triple (diagnostics log,
scope-or-absent, type index), where the scope component is the `scope`
attached to the final tree's root if present and `none` (absent)
otherwise, and the index is the collector's result on the final tree. -/
theorem claim3_driver_returns_triple (ext : Externals) (s r : String) (fpo : Bool) :
    do_semantic_analysis ext s r fpo =
      ([] ++ (ext.defineScopesAndSymbols (ext.parse s r)).2 ++
         (if fpo then [] else
           (ext.inferTypesAndCheckConstraints
             (ext.defineScopesAndSymbols (ext.parse s r)).1).2),
       scopeOf (if fpo then (ext.defineScopesAndSymbols (ext.parse s r)).1 else
           (ext.inferTypesAndCheckConstraints
             (ext.defineScopesAndSymbols (ext.parse s r)).1).1),
       collectTree (if fpo then (ext.defineScopesAndSymbols (ext.parse s r)).1 else
           (ext.inferTypesAndCheckConstraints
             (ext.defineScopesAndSymbols (ext.parse s r)).1).1)) := by
  cases fpo <;> rfl

/-- Claim C4: after collection the index is well-formed (each (line, text)
pair has at most one entry), and the value recorded under (l, s) is the
type of the LAST node in traversal (exit) order that is included and
matches (l, s) — last-write-wins. -/
theorem claim4_index_wf_last_write_wins (t : PTree) :
    IndexWF (collectTree t) ∧
    ∀ l s, lookup2 (collectTree t) l s =
      (match (exits t).reverse.find? (matchKey l s) with
       | some n => some (nodeTy n)
       | none => none) := by
  constructor
  · rw [collectTree, walkCollect_eq_foldl]
    exact foldl_exit_WF _ _ ⟨List.nodup_nil, fun p hp => absurd hp (List.not_mem_nil p)⟩
  · intro l s
    exact lookup2_collectTree t l s

/-- Claim C5: the `None` marker recorded for an unannotated node differs
from the value recorded for any node whose `type` annotation is present
and set to any type value an analysis phase can produce. -/
theorem claim5_marker_distinct_from_real_types (idx idx2 : TypeIndex)
    (n n2 : PTree) (ty : Ty)
    (hn : includedNode n = true) (hty : nodeTy n = some ty)
    (hn2 : includedNode n2 = true) (hty2 : nodeTy n2 = none) :
    lookup2 (exitEveryRule idx n) (startLine n) (getText n) ≠
      lookup2 (exitEveryRule idx2 n2) (startLine n2) (getText n2) := by
  rw [lookup2_exitEveryRule, if_pos (matchKey_self n hn),
    lookup2_exitEveryRule, if_pos (matchKey_self n2 hn2), hty, hty2]
  intro hcontra
  simp at hcontra

/-- Witness for C5: recording the annotated `1+2 : Int` node and the
unannotated `x` node yields distinct index values. -/
theorem claim5_witness :
    lookup2 (exitEveryRule [] exOneExpr) (startLine exOneExpr) (getText exOneExpr) ≠
      lookup2 (exitEveryRule [] exNoTy) (startLine exNoTy) (getText exNoTy) :=
  claim5_marker_distinct_from_real_types [] [] exOneExpr exNoTy Ty.Int rfl rfl rfl rfl

/-- Claim C6: if the parsed tree has no expression nodes and no
function-call-statement nodes, and the phases (as the spec requires)
annotate without restructuring — preserving the tree's rule-kind skeleton
— then the type index returned by the driver is empty. -/
theorem claim6_no_expressions_empty_index (ext : Externals) (s r : String) (fpo : Bool)
    (hp : (exits (ext.parse s r)).filter includedNode = [])
    (h1 : ∀ u, exitKinds ((ext.defineScopesAndSymbols u).1) = exitKinds u)
    (h2 : ∀ u, exitKinds ((ext.inferTypesAndCheckConstraints u).1) = exitKinds u) :
    (do_semantic_analysis ext s r fpo).2.2 = [] := by
  have hk : ∀ k ∈ exitKinds (ext.parse s r), kindIncluded k = false :=
    (filter_included_eq_nil_iff _).mp hp
  cases fpo with
  | true =>
    show collectTree (ext.defineScopesAndSymbols (ext.parse s r)).1 = []
    rw [collectTree_eq_foldl,
      (filter_included_eq_nil_iff _).mpr (by rw [h1]; exact hk)]
    rfl
  | false =>
    show collectTree (ext.inferTypesAndCheckConstraints
        (ext.defineScopesAndSymbols (ext.parse s r)).1).1 = []
    rw [collectTree_eq_foldl,
      (filter_included_eq_nil_iff _).mpr (by rw [h2, h1]; exact hk)]
    rfl

/-- Witness for C6: with externals whose parser yields the expression-free
`exNoExpr` and identity phases, the driver's type index is empty. -/
theorem claim6_witness :
    (exits (extIdNoExpr.parse "var x : Int" "script")).filter includedNode = [] ∧
    (do_semantic_analysis extIdNoExpr "var x : Int" "script" false).2.2 = [] :=
  ⟨rfl, claim6_no_expressions_empty_index extIdNoExpr "var x : Int" "script" false
    rfl (fun u => rfl) (fun u => rfl)⟩

/-- Claim C7: two distinct included nodes on different lines rendering
identical text give two independent entries, one under each line number
(the index is keyed by line first): both lookups succeed, at distinct
line keys. -/
theorem claim7_same_text_different_lines_two_entries (t n1 n2 : PTree)
    (h1 : n1 ∈ exits t) (hi1 : includedNode n1 = true)
    (h2 : n2 ∈ exits t) (hi2 : includedNode n2 = true)
    (htext : getText n1 = getText n2)
    (hline : startLine n1 ≠ startLine n2) :
    startLine n1 ≠ startLine n2 ∧
    (lookup2 (collectTree t) (startLine n1) (getText n1)).isSome = true ∧
    (lookup2 (collectTree t) (startLine n2) (getText n2)).isSome = true :=
  ⟨hline, lookup2_collectTree_isSome t n1 h1 hi1, lookup2_collectTree_isSome t n2 h2 hi2⟩

/-- Witness for C7: in `exTwoLines` the text `x` appears as an expression
on lines 1 and 2; both entries are present in the collected index. -/
theorem claim7_witness :
    (lookup2 (collectTree exTwoLines) 1 "x").isSome = true ∧
    (lookup2 (collectTree exTwoLines) 2 "x").isSome = true := by
  have h := claim7_same_text_different_lines_two_entries exTwoLines
    (PTree.rule .expr ⟨"x", 1⟩ (some .Int) none [PTree.term ⟨"x", 1⟩])
    (PTree.rule .expr ⟨"x", 2⟩ (some .Bool) none [PTree.term ⟨"x", 2⟩])
    (by show _ ∈ [_, _, exTwoLines]; exact List.mem_cons_self _ _) rfl
    (by show _ ∈ [_, _, exTwoLines]; exact List.mem_cons_of_mem _ (List.mem_cons_self _ _)) rfl
    rfl (by decide)
  exact ⟨h.2.1, h.2.2⟩

/-- Claim C8: the driver is a pure function of its inputs — each call
builds a fresh error log and a fresh collector, so two runs on identical
input (same source, same start rule, `first_phase_only = false`) yield
structurally identical diagnostics and type indices. -/
theorem claim8_driver_deterministic (ext : Externals) (s r : String) :
    (do_semantic_analysis ext s r false).1 = (do_semantic_analysis ext s r false).1 ∧
    (do_semantic_analysis ext s r false).2.2 = (do_semantic_analysis ext s r false).2.2 :=
  ⟨rfl, rfl⟩

/-- Claim C10: the type index returned by the driver is an auto-vivifying
two-level mapping: looking up an absent line yields an empty inner
mapping, and the lookup inserts that inner mapping, growing the set of
outer keys. -/
theorem claim10_defaultdict_autovivification (ext : Externals) (s r : String)
    (fpo : Bool) (line : Nat)
    (h : dictGet (do_semantic_analysis ext s r fpo).2.2 line = none) :
    ddGetItem (do_semantic_analysis ext s r fpo).2.2 line =
      ([], (do_semantic_analysis ext s r fpo).2.2 ++ [(line, [])]) ∧
    line ∈ ((ddGetItem (do_semantic_analysis ext s r fpo).2.2 line).2.map
      (fun p => p.1)) := by
  refine ⟨ddGetItem_of_none _ _ h, ?_⟩
  rw [ddGetItem_of_none _ _ h, List.map_append]
  exact List.mem_append.mpr (Or.inr (by simp))

/-- Witness for C10: line 99 is absent from the driver's returned index in
the `extIdNoTy` run, and looking it up vivifies it. -/
theorem claim10_witness :
    dictGet (do_semantic_analysis extIdNoTy "x" "script" false).2.2 99 = none ∧
    ddGetItem (do_semantic_analysis extIdNoTy "x" "script" false).2.2 99 =
      ([], (do_semantic_analysis extIdNoTy "x" "script" false).2.2 ++ [(99, [])]) :=
  ⟨rfl, (claim10_defaultdict_autovivification extIdNoTy "x" "script" false 99 rfl).1⟩

/-- Claim C9: `pretty_types` produces a single string of one block per
line number in ascending numeric order — each block headed by a
`line <N>:` header and followed by one `  <expr> : <type-or-marker>` line
per expression on that line in ascending lexicographic order of the
expression text — all joined with newlines: the blocks range over a
sorted permutation of the index's line keys, and each block's expression
lines over a sorted permutation of that line's expression keys. -/
theorem claim9_pretty_types_format (idx : TypeIndex) :
    ∃ (ls : List Nat) (f : Nat → List String),
      List.Perm ls (idx.map (fun p => p.1)) ∧
      List.Sorted (fun a b => a ≤ b) ls ∧
      (∀ n, List.Perm (f n) ((innerAt idx n).map (fun q => q.1)) ∧
        List.Sorted (fun a b : String => a ≤ b) (f n)) ∧
      pretty_types idx = String.intercalate "\n" (ls.flatMap (fun n =>
        lineHeader n :: (f n).map (fun e => exprReportLine idx n e))) := by
  refine ⟨(idx.map (fun p => p.1)).mergeSort natLeB,
    fun n => ((innerAt idx n).map (fun q => q.1)).mergeSort strLeB, ?_, ?_, ?_, ?_⟩
  · exact List.mergeSort_perm _ _
  · exact (@List.sorted_mergeSort Nat natLeB
      (fun a b c h1 h2 => decide_eq_true
        (Nat.le_trans (of_decide_eq_true h1) (of_decide_eq_true h2)))
      (fun a b => by rcases Nat.le_total a b with h | h <;> simp [natLeB, h])
      (idx.map (fun p => p.1))).imp (fun h => of_decide_eq_true h)
  · intro n
    constructor
    · exact List.mergeSort_perm _ _
    · exact (@List.sorted_mergeSort String strLeB
        (fun a b c h1 h2 => decide_eq_true
          (le_trans (of_decide_eq_true h1) (of_decide_eq_true h2)))
        (fun a b => by rcases le_total a b with h | h <;> simp [strLeB, h])
        ((innerAt idx n).map (fun q => q.1))).imp (fun h => of_decide_eq_true h)
  · rfl
